import Mathlib

/-!
Shallow embedding of the Moore-automata library `ma.c` and verification of
its specification claims.

Modelling conventions:
* A C pointer to a `moore_t` is modelled as a natural-number identifier
  looked up in a heap `Heap := Nat → Option Moore`; a destroyed automaton
  (freed memory / `magic != MOORE_MAGIC`) is an identifier mapped to `none`.
  A nullable pointer argument is an `Option Nat`.
* `uint64_t` buffers are `List Nat` of machine words (each word is the value
  of one `uint64_t`; all bit operations performed by the C code use shifts
  below 64 and bitwise or/and, on which `Nat` agrees with `uint64_t`).
* Caller-supplied transition and output functions receive the previous
  contents of the buffer they write into (the C functions get a pointer to
  the live buffer) and return the new contents of that buffer; the library
  truncates/pads to the buffer's word count with `fit`, reflecting that the
  C buffer has a fixed word count that a conforming callback fills.
* Allocation failure of `realloc` in `append_to_connected_list` is the one
  allocation the claims mention; it is modelled by an explicit boolean
  oracle `allocFail` passed to `ma_connect`.
-/

namespace MA

/-- `SIZE_MAX` on the 64-bit target the code is compiled for. -/
def SIZE_MAX : Nat := 2 ^ 64 - 1

/-- Number of 64-bit words needed for `bits` bits: `(bits + 63) / 64`. -/
def wordsFor (bits : Nat) : Nat := (bits + 63) / 64

/-- Contents of a `k`-word buffer after writing list `l` into it word by
word (missing words read as 0).  Models `memcpy` of `k` words from `l`
(defined C behaviour requires `k ≤ l.length`) and also normalises the
result of a callback to the buffer's word count. -/
def fit (k : Nat) (l : List Nat) : List Nat :=
  (List.range k).map fun i => l.getD i 0

/-- Bit `i` of a word buffer: word `i / 64`, bit `i % 64`
(`bit_word` / `bit_pos` in the source). -/
def getBit (buf : List Nat) (i : Nat) : Bool :=
  Nat.testBit (buf.getD (i / 64) 0) (i % 64)

/-- `buf[i/64] |= 1 << (i%64)` from `update_final_input`. -/
def setBitBuf (buf : List Nat) (i : Nat) : List Nat :=
  buf.set (i / 64) (buf.getD (i / 64) 0 ||| (1 <<< (i % 64)))

/-- Type of caller-supplied transition functions
`t(next_state, input, state, n, s)`: old `next_state` buffer contents,
input bits, state bits, `n`, `s` ↦ new `next_state` contents. -/
abbrev TFun := List Nat → List Nat → List Nat → Nat → Nat → List Nat

/-- Type of caller-supplied output functions `y(output, state, m, s)`:
old `output` buffer contents, state bits, `m`, `s` ↦ new contents. -/
abbrev YFun := List Nat → List Nat → Nat → Nat → List Nat

/-- The `moore` struct.  The liveness tag `magic` is represented by
presence in the heap; `connected_to_me_count` is the length of the
`connected_to_me` list. -/
structure Moore where
  n : Nat
  m : Nat
  s : Nat
  t : TFun
  y : YFun
  state : List Nat
  next_state : List Nat
  output : List Nat
  manual_input : List Nat
  final_input : List Nat
  incoming_connections : List (Option (Nat × Nat))
  connected_to_me : List Nat
  connected_to_me_capacity : Nat

/-- The heap of automata: identifiers (pointers) to live automata. -/
abbrev Heap := Nat → Option Moore

/-- Heap update at one identifier. -/
def Heap.upd (h : Heap) (i : Nat) (a : Moore) : Heap :=
  fun x => if x = i then some a else h x

theorem Heap.upd_self (h : Heap) (i : Nat) (a : Moore) : h.upd i a i = some a := by
  simp [Heap.upd]

theorem Heap.upd_other (h : Heap) (i : Nat) (a : Moore) {x : Nat} (hx : x ≠ i) :
    h.upd i a x = h x := by
  simp [Heap.upd, hx]

/- ### Basic buffer lemmas -/

theorem fit_length (k : Nat) (l : List Nat) : (fit k l).length = k := by
  simp [fit]

theorem fit_getD (k : Nat) (l : List Nat) (i : Nat) :
    (fit k l).getD i 0 = if i < k then l.getD i 0 else 0 := by
  rcases Nat.lt_or_ge i k with h | h
  · rw [fit, List.getD_eq_getElem?_getD, List.getElem?_map, List.getElem?_range h]
    simp [List.getD_eq_getElem?_getD, h]
  · rw [fit, List.getD_eq_getElem?_getD]
    have h2 : (List.range k)[i]? = none := by
      apply List.getElem?_eq_none
      simpa using h
    simp [h2, Nat.not_lt.mpr h]

theorem getBit_fit (k : Nat) (l : List Nat) (j : Nat) :
    getBit (fit k l) j = if j / 64 < k then getBit l j else false := by
  rw [getBit, fit_getD]
  rcases Nat.lt_or_ge (j / 64) k with h | h
  · simp [h, getBit]
  · simp [Nat.not_lt.mpr h]

theorem getBit_replicate_zero (k j : Nat) : getBit (List.replicate k 0) j = false := by
  rw [getBit]
  rcases Nat.lt_or_ge (j / 64) k with h | h
  · simp [List.getD_eq_getElem?_getD, List.getElem?_replicate, h]
  · simp [List.getD_eq_getElem?_getD, List.getElem?_replicate, Nat.not_lt.mpr h]

theorem setBitBuf_length (buf : List Nat) (i : Nat) :
    (setBitBuf buf i).length = buf.length := by
  simp [setBitBuf]

/-- Reading a bit after setting a bit, when the set lands inside the buffer. -/
theorem getBit_setBitBuf (buf : List Nat) (i j : Nat) (hi : i / 64 < buf.length) :
    getBit (setBitBuf buf i) j = (decide (j = i) || getBit buf j) := by
  unfold getBit setBitBuf
  rcases Decidable.em (j / 64 = i / 64) with hw | hw
  · rw [List.getD_eq_getElem?_getD, List.getElem?_set, if_pos hw.symm, if_pos hi]
    rcases Decidable.em (j % 64 = i % 64) with hb | hb
    · have hj : j = i := by omega
      simp [hj, Nat.testBit_or, Nat.shiftLeft_eq, Nat.testBit_two_pow]
    · have hj : j ≠ i := by omega
      simp [hj, Nat.testBit_or, Nat.shiftLeft_eq, Nat.testBit_two_pow,
        List.getD_eq_getElem?_getD, hw, Ne.symm hb, hb]
  · have hj : j ≠ i := by omega
    rw [List.getD_eq_getElem?_getD, List.getElem?_set, if_neg (fun hh => hw hh.symm)]
    simp [hj, List.getD_eq_getElem?_getD]

/- ### Operations translated from `ma.c` -/

/-- `ma_create_full` (ma.c:78).  `t?`, `y?`, `q?` are the nullable pointer
arguments; the initial-state copy is `memcpy(state, q, s_elements * 8)`,
so the state buffer holds the first `wordsFor s` words of `q` (defined C
behaviour requires `q` to provide that many words).  The output buffer is
zero-initialised by `calloc` and then filled by `y`.  Allocation failures
other than the argument/overflow checks are not modelled (the construction
is transactional and returns `NULL`, producing no object). -/
def ma_create_full (n m s : Nat) (t? : Option TFun) (y? : Option YFun)
    (q? : Option (List Nat)) : Option Moore :=
  match t?, y?, q? with
  | some t, some y, some q =>
    if m = 0 ∨ s = 0 then none
    else if n > SIZE_MAX / 64 ∨ m > SIZE_MAX / 64 ∨ s > SIZE_MAX / 64 then none
    else if wordsFor n > SIZE_MAX / 8 ∨ wordsFor m > SIZE_MAX / 8 ∨
        wordsFor s > SIZE_MAX / 8 ∨ n > SIZE_MAX / 16 then none
    else
      let st := fit (wordsFor s) q
      some { n := n, m := m, s := s, t := t, y := y,
             state := st,
             next_state := List.replicate (wordsFor s) 0,
             output := fit (wordsFor m) (y (List.replicate (wordsFor m) 0) st m s),
             manual_input := List.replicate (wordsFor n) 0,
             final_input := List.replicate (wordsFor n) 0,
             incoming_connections := List.replicate n none,
             connected_to_me := [],
             connected_to_me_capacity := 8 }
  | _, _, _ => none

/-- `identity_func` (ma.c:196): when `m = s > 0`, copies `wordsFor s` state
words into the output buffer and masks the unused high bits of the last
word (`&= (1 << (s % 64)) - 1`, i.e. `% 2 ^ (s % 64)`); otherwise it
writes nothing and the buffer keeps its previous contents. -/
def identity_func (old : List Nat) (state : List Nat) (m s : Nat) : List Nat :=
  if m = s ∧ 0 < s then
    let copied := fit (wordsFor s) state
    if s % 64 ≠ 0 then
      copied.set (wordsFor s - 1) ((copied.getD (wordsFor s - 1) 0) % 2 ^ (s % 64))
    else copied
  else old

/-- `ma_create_simple` (ma.c:221): `ma_create_full n s s t identity_func`
on an all-zero initial state. -/
def ma_create_simple (n s : Nat) (t? : Option TFun) : Option Moore :=
  if s = 0 ∨ t?.isNone then none
  else ma_create_full n s s t? (some identity_func)
    (some (List.replicate (wordsFor s) 0))

/-- `append_to_connected_list` (ma.c:255) acting on the source automaton
`B`, registering dependent `x`: no-op if already present; otherwise grows
the array when full (`none` = `realloc` failed, per the `allocFail`
oracle) and appends. -/
def append_to_connected_list (B : Moore) (x : Nat) (allocFail : Bool) :
    Option Moore :=
  if x ∈ B.connected_to_me then some B
  else if B.connected_to_me.length = B.connected_to_me_capacity then
    if allocFail then none
    else some { B with
      connected_to_me_capacity :=
        if B.connected_to_me_capacity = 0 then 8
        else 2 * B.connected_to_me_capacity,
      connected_to_me := B.connected_to_me ++ [x] }
  else some { B with connected_to_me := B.connected_to_me ++ [x] }

/-- The slot-writing loop of `ma_connect` (ma.c:318): for `i < num`,
slot `inIdx + i` is set to `(ao, outIdx + i)`. -/
def writeSlots (slots : List (Option (Nat × Nat))) (inIdx ao outIdx num : Nat) :
    List (Option (Nat × Nat)) :=
  (List.range num).foldl (fun sl i => sl.set (inIdx + i) (some (ao, outIdx + i))) slots

/-- `ma_connect` (ma.c:300).  Returns the (possibly mutated) heap and the
C return value.  Note the order of effects in the source: the incoming
slots of the target are overwritten first, and only then is the target
appended to the source's `connected_to_me`; an allocation failure there
leaves the slots already mutated. -/
def ma_connect (h : Heap) (aIn? : Option Nat) (inIdx : Nat) (aOut? : Option Nat)
    (outIdx num : Nat) (allocFail : Bool) : Heap × Int :=
  match aIn?, aOut? with
  | some ai, some ao =>
    if num = 0 then (h, -1)
    else
      match h ai, h ao with
      | some A, some B =>
        if inIdx ≥ A.n ∨ outIdx ≥ B.m ∨ num > A.n - inIdx ∨ num > B.m - outIdx
        then (h, -1)
        else
          let h' := h.upd ai
            { A with incoming_connections :=
                writeSlots A.incoming_connections inIdx ao outIdx num }
          match h' ao with
          | some B' =>
            match append_to_connected_list B' ai allocFail with
            | none => (h', -1)
            | some B'' => (h'.upd ao B'', 0)
          | none => (h', -1)
      | _, _ => (h, -1)
  | _, _ => (h, -1)

/-- `remove_connected` (ma.c:340) on the owner `B`: compacts
`connected_to_me`, dropping every occurrence of `aIn` (and any null entry,
which the model's list never contains). -/
def remove_connected (aIn : Nat) (B : Moore) : Moore :=
  { B with connected_to_me := B.connected_to_me.filter (fun x => x ≠ aIn) }

/-- `ma_delete` (ma.c:364).  No-op on a null or already-destroyed
reference.  Otherwise: mark destroyed (remove from the heap), then for
each incoming source still live remove this automaton from that source's
dependents, then for each live dependent null out every slot pointing to
this automaton. -/
def ma_delete (h : Heap) (a? : Option Nat) : Heap :=
  match a? with
  | none => h
  | some ai =>
    match h ai with
    | none => h
    | some A =>
      let h1 : Heap := fun x => if x = ai then none else h x
      let h2 := A.incoming_connections.foldl
        (fun hh slot =>
          match slot with
          | some (src, _) =>
            match hh src with
            | some S => hh.upd src (remove_connected ai S)
            | none => hh
          | none => hh) h1
      A.connected_to_me.foldl
        (fun hh d =>
          match hh d with
          | some D => hh.upd d
              { D with incoming_connections :=
                  D.incoming_connections.map (fun sl =>
                    match sl with
                    | some (s, idx) => if s = ai then none else some (s, idx)
                    | none => none) }
          | none => hh) h2

/-- `ma_set_input` (ma.c:511): copies `wordsFor n` words from `input` into
the manual-input buffer. -/
def ma_set_input (h : Heap) (a? : Option Nat) (input? : Option (List Nat)) :
    Heap × Int :=
  match a?, input? with
  | some ai, some inp =>
    match h ai with
    | some A =>
      if A.n = 0 then (h, -1)
      else (h.upd ai { A with manual_input := fit (wordsFor A.n) inp }, 0)
    | none => (h, -1)
  | _, _ => (h, -1)

/-- `ma_set_state` (ma.c:531): copies `wordsFor s` words from `state` into
the state buffer (verbatim, no masking), then recomputes the output via
`y`. -/
def ma_set_state (h : Heap) (a? : Option Nat) (state? : Option (List Nat)) :
    Heap × Int :=
  match a?, state? with
  | some ai, some q =>
    match h ai with
    | some A =>
      let st := fit (wordsFor A.s) q
      (h.upd ai { A with
          state := st,
          output := fit (wordsFor A.m) (A.y A.output st A.m A.s) }, 0)
    | none => (h, -1)
  | _, _ => (h, -1)

/-- `ma_get_output` (ma.c:553): returns the output buffer contents (in C,
a pointer to the buffer). -/
def ma_get_output (h : Heap) (a? : Option Nat) : Option (List Nat) :=
  match a? with
  | none => none
  | some ai => (h ai).map (fun A => A.output)

/-- The per-bit resolution rule of `update_final_input` (ma.c:595-624):
a connected slot whose source is live (non-null pointer with live magic;
a live automaton's output buffer is always allocated since `m ≥ 1`) and
whose recorded index is below the source's output width reads the source's
output bit; every other case reads the manual-input bit `i`. -/
def resolveBit (h : Heap) (a : Moore) (i : Nat) : Bool :=
  match a.incoming_connections.getD i none with
  | some (srcId, idx) =>
    match h srcId with
    | some src =>
      if idx < src.m then getBit src.output idx
      else getBit a.manual_input i
    | none => getBit a.manual_input i
  | none => getBit a.manual_input i

/-- `update_final_input` (ma.c:582): for `n = 0` (the buffers are then
null) the automaton is left untouched; otherwise the final-input buffer is
zeroed and each bit `i < n` is set from `resolveBit`. -/
def update_final_input (h : Heap) (a : Moore) : Moore :=
  if a.n = 0 then a
  else
    { a with
      final_input :=
        (List.range a.n).foldl
          (fun buf i => if resolveBit h a i then setBitBuf buf i else buf)
          (List.replicate (wordsFor a.n) 0) }

/-- One iteration of the input-resolution loop of `ma_step` (ma.c:650),
on a non-null element (a dangling pointer would be undefined behaviour in
C; the model skips it, and all theorems assume live elements). -/
def phase1step (h : Heap) (a? : Option Nat) : Heap :=
  match a? with
  | some ai =>
    match h ai with
    | some A => h.upd ai (update_final_input h A)
    | none => h
  | none => h

/-- The input-resolution loop of `ma_step` with its early `return -1` on a
null element; returns the mutated heap and whether the loop completed. -/
def stepPhase1 (h : Heap) : List (Option Nat) → Heap × Bool
  | [] => (h, true)
  | none :: _ => (h, false)
  | some ai :: rest => stepPhase1 (phase1step h (some ai)) rest

/-- One iteration of the next-state loop of `ma_step` (ma.c:661):
`a->t(a->next_state, a->final_input, a->state, a->n, a->s)`. -/
def phase2step (h : Heap) (a? : Option Nat) : Heap :=
  match a? with
  | some ai =>
    match h ai with
    | some A => h.upd ai
        { A with
          next_state :=
            fit (wordsFor A.s) (A.t A.next_state A.final_input A.state A.n A.s) }
    | none => h
  | none => h

/-- One iteration of the commit loop of `ma_step` (ma.c:668): swap the
state buffers, then recompute the output from the new current state. -/
def phase3step (h : Heap) (a? : Option Nat) : Heap :=
  match a? with
  | some ai =>
    match h ai with
    | some A => h.upd ai
        { A with
          state := A.next_state,
          next_state := A.state,
          output := fit (wordsFor A.m) (A.y A.output A.next_state A.m A.s) }
    | none => h
  | none => h

/-- `ma_step` (ma.c:641): returns the mutated heap and the C return value.
(The `!at` null-array check has no counterpart: the list itself is always
present in the model.) -/
def ma_step (h : Heap) (ats : List (Option Nat)) : Heap × Int :=
  if ats = [] then (h, -1)
  else
    match stepPhase1 h ats with
    | (h1, false) => (h1, -1)
    | (h1, true) =>
      let h2 := ats.foldl phase2step h1
      (ats.foldl phase3step h2, 0)

/- ### Characterisation of `update_final_input` -/

theorem finalFold_length (h : Heap) (a : Moore) (k : Nat) (buf : List Nat) :
    ((List.range k).foldl
      (fun buf i => if resolveBit h a i then setBitBuf buf i else buf) buf).length
      = buf.length := by
  induction k generalizing buf with
  | zero => simp
  | succ k ih =>
    rw [List.range_succ, List.foldl_append]
    simp only [List.foldl_cons, List.foldl_nil]
    rcases Decidable.em (resolveBit h a k) with hr | hr
    · simp [hr, setBitBuf_length, ih]
    · simp [hr, ih]

theorem getBit_finalFold (h : Heap) (a : Moore) (k : Nat) (buf : List Nat)
    (hk : k ≤ 64 * buf.length) (j : Nat) :
    getBit ((List.range k).foldl
      (fun buf i => if resolveBit h a i then setBitBuf buf i else buf) buf) j
    = if j < k then (resolveBit h a j || getBit buf j) else getBit buf j := by
  induction k with
  | zero => simp
  | succ k ih =>
    rw [List.range_succ, List.foldl_append]
    simp only [List.foldl_cons, List.foldl_nil]
    have hlen : ((List.range k).foldl
        (fun buf i => if resolveBit h a i then setBitBuf buf i else buf) buf).length
        = buf.length := finalFold_length h a k buf
    have hk' : k ≤ 64 * buf.length := by omega
    have hkdiv : k / 64 < buf.length := by omega
    rcases Decidable.em (resolveBit h a k) with hr | hr
    · rw [if_pos hr, getBit_setBitBuf _ _ _ (by rw [hlen]; exact hkdiv), ih hk']
      rcases Nat.lt_trichotomy j k with hj | hj | hj
      · have h1 : j ≠ k := by omega
        simp [hj, h1, Nat.lt_succ_of_lt hj]
      · subst hj
        simp [hr, Nat.lt_irrefl, Nat.lt_succ_self]
      · have h1 : j ≠ k := by omega
        have h2 : ¬ j < k := by omega
        have h3 : ¬ j < k + 1 := by omega
        simp [h1, h2, h3]
    · rw [if_neg hr, ih hk']
      rcases Nat.lt_trichotomy j k with hj | hj | hj
      · simp [hj, Nat.lt_succ_of_lt hj]
      · subst hj
        simp [hr, Nat.lt_irrefl, Nat.lt_succ_self]
      · have h2 : ¬ j < k := by omega
        have h3 : ¬ j < k + 1 := by omega
        simp [h2, h3]

theorem bits_le_words (n : Nat) : n ≤ 64 * wordsFor n := by
  unfold wordsFor
  omega

/-- Every bit of the final-input buffer after `update_final_input`:
bit `j < n` is the resolved bit, bits at and above `n` are zero. -/
theorem getBit_update_final_input (h : Heap) (a : Moore) (hn : 0 < a.n) (j : Nat) :
    getBit (update_final_input h a).final_input j =
      if j < a.n then resolveBit h a j else false := by
  unfold update_final_input
  rw [if_neg (by omega : ¬ a.n = 0)]
  simp only
  rw [getBit_finalFold h a a.n (List.replicate (wordsFor a.n) 0)
    (by simpa using bits_le_words a.n) j]
  simp [getBit_replicate_zero]

/- ### Concrete automata used to instantiate theorems on closed inputs -/

/-- A transition function that leaves the next-state buffer as it was. -/
def tHold : TFun := fun old _ _ _ _ => old

/-- A transition function writing the constant word 1. -/
def tOne : TFun := fun _ _ _ _ _ => [1]

/-- An output function copying the state words verbatim. -/
def yCopy : YFun := fun _ state _ _ => state

/-- A live automaton with `n = 0`, `m = 1`, `s = 1`, output bit 1. -/
def mooreA : Moore :=
  { n := 0, m := 1, s := 1, t := tHold, y := yCopy,
    state := [1], next_state := [0], output := [1],
    manual_input := [], final_input := [],
    incoming_connections := [], connected_to_me := [1],
    connected_to_me_capacity := 8 }

/-- A live automaton with `n = 1`, `m = 1`, `s = 1`, whose single input
slot is connected to output 0 of automaton 0 and whose manual input bit
is 0. -/
def mooreB : Moore :=
  { n := 1, m := 1, s := 1, t := tHold, y := yCopy,
    state := [0], next_state := [0], output := [0],
    manual_input := [0], final_input := [0],
    incoming_connections := [some (0, 0)], connected_to_me := [],
    connected_to_me_capacity := 8 }

/-- A two-automaton heap: automaton 0 = `mooreA`, automaton 1 = `mooreB`. -/
def hW : Heap :=
  fun x => if x = 0 then some mooreA else if x = 1 then some mooreB else none

/- ### C2: per-bit input resolution -/

/-- C2: for every automaton with `n > 0`, input resolution zeroes the
whole final-input buffer and resolves each bit `i` independently: a
connected slot whose source is live and whose recorded index is within
the source's output width reads that index of the source's current output
buffer; otherwise (no source, destroyed source, out-of-range index) the
bit comes from bit `i` of the manual-input buffer.  Bits `i ≥ n` of the
buffer are zero. -/
theorem claim_C2 (h : Heap) (a : Moore) (hn : 0 < a.n) (i : Nat) :
    getBit (update_final_input h a).final_input i =
      if i < a.n then
        (match a.incoming_connections.getD i none with
         | some (srcId, idx) =>
           match h srcId with
           | some src =>
             if idx < src.m then getBit src.output idx
             else getBit a.manual_input i
           | none => getBit a.manual_input i
         | none => getBit a.manual_input i)
      else false := by
  rw [getBit_update_final_input h a hn i]
  rfl

/-- Witness for C2 on a closed input: in `hW`, automaton 1's resolved
input bit 0 is automaton 0's output bit 0, i.e. 1, although its manual
input bit is 0. -/
theorem claim_C2_witness :
    getBit (update_final_input hW mooreB).final_input 0 = true := by
  have hx := claim_C2 hW mooreB (by decide) 0
  rw [hx]
  decide

/- ### Frame predicates and frame lemmas for the step phases -/

/-- Two automata agreeing on every field except possibly `final_input`. -/
def eqExceptFinal (A B : Moore) : Prop :=
  A.n = B.n ∧ A.m = B.m ∧ A.s = B.s ∧ A.t = B.t ∧ A.y = B.y ∧
  A.state = B.state ∧ A.next_state = B.next_state ∧ A.output = B.output ∧
  A.manual_input = B.manual_input ∧
  A.incoming_connections = B.incoming_connections ∧
  A.connected_to_me = B.connected_to_me ∧
  A.connected_to_me_capacity = B.connected_to_me_capacity

/-- `eqExceptFinal` lifted to heap entries (matching liveness). -/
def optEqExceptFinal : Option Moore → Option Moore → Prop
  | none, none => True
  | some A, some B => eqExceptFinal A B
  | _, _ => False

theorem eqExceptFinal_refl (A : Moore) : eqExceptFinal A A := by
  unfold eqExceptFinal
  exact ⟨rfl, rfl, rfl, rfl, rfl, rfl, rfl, rfl, rfl, rfl, rfl, rfl⟩

theorem eqExceptFinal_trans {A B C : Moore}
    (h1 : eqExceptFinal A B) (h2 : eqExceptFinal B C) : eqExceptFinal A C := by
  unfold eqExceptFinal at *
  obtain ⟨a1, a2, a3, a4, a5, a6, a7, a8, a9, a10, a11, a12⟩ := h1
  obtain ⟨b1, b2, b3, b4, b5, b6, b7, b8, b9, b10, b11, b12⟩ := h2
  exact ⟨a1.trans b1, a2.trans b2, a3.trans b3, a4.trans b4, a5.trans b5,
    a6.trans b6, a7.trans b7, a8.trans b8, a9.trans b9, a10.trans b10,
    a11.trans b11, a12.trans b12⟩

theorem optEqExceptFinal_refl (o : Option Moore) : optEqExceptFinal o o := by
  cases o with
  | none => trivial
  | some A => exact eqExceptFinal_refl A

theorem optEqExceptFinal_trans {o1 o2 o3 : Option Moore}
    (h1 : optEqExceptFinal o1 o2) (h2 : optEqExceptFinal o2 o3) :
    optEqExceptFinal o1 o3 := by
  cases o1 <;> cases o2 <;> cases o3 <;> simp only [optEqExceptFinal] at *
  exact eqExceptFinal_trans h1 h2

theorem eqExceptFinal_update_final_input (h : Heap) (a : Moore) :
    eqExceptFinal a (update_final_input h a) := by
  unfold update_final_input
  rcases Decidable.em (a.n = 0) with hz | hz
  · rw [if_pos hz]
    exact eqExceptFinal_refl a
  · rw [if_neg hz]
    unfold eqExceptFinal
    exact ⟨rfl, rfl, rfl, rfl, rfl, rfl, rfl, rfl, rfl, rfl, rfl, rfl⟩

/-- Phase 1 only touches final-input buffers. -/
theorem phase1step_frame (h : Heap) (a? : Option Nat) (x : Nat) :
    optEqExceptFinal (h x) (phase1step h a? x) := by
  cases a? with
  | none => exact optEqExceptFinal_refl (h x)
  | some ai =>
    unfold phase1step
    cases hA : h ai with
    | none =>
      simp only [hA]
      exact optEqExceptFinal_refl (h x)
    | some A =>
      simp only [hA]
      rcases Decidable.em (x = ai) with hx | hx
      · subst hx
        rw [Heap.upd_self, hA]
        exact eqExceptFinal_update_final_input h A
      · rw [Heap.upd_other h ai _ hx]
        exact optEqExceptFinal_refl (h x)

/-- The whole input-resolution loop only touches final-input buffers. -/
theorem stepPhase1_frame (l : List (Option Nat)) (h : Heap) (x : Nat) :
    optEqExceptFinal (h x) ((stepPhase1 h l).1 x) := by
  induction l generalizing h with
  | nil => exact optEqExceptFinal_refl (h x)
  | cons hd tl ih =>
    cases hd with
    | none => exact optEqExceptFinal_refl (h x)
    | some ai =>
      exact optEqExceptFinal_trans (phase1step_frame h (some ai) x) (ih _)

/-- `resolveBit` depends only on data that phase 1 never writes. -/
theorem resolveBit_congr (h h' : Heap) (a a' : Moore)
    (hh : ∀ x, optEqExceptFinal (h x) (h' x))
    (hinc : a.incoming_connections = a'.incoming_connections)
    (hman : a.manual_input = a'.manual_input) (i : Nat) :
    resolveBit h' a' i = resolveBit h a i := by
  unfold resolveBit
  rw [← hinc, ← hman]
  cases hslot : a.incoming_connections.getD i none with
  | none => rfl
  | some p =>
    obtain ⟨srcId, idx⟩ := p
    have hx := hh srcId
    cases hs : h srcId with
    | none =>
      cases hs' : h' srcId with
      | none => simp only [hs, hs']
      | some S' =>
        rw [hs, hs'] at hx
        exact absurd hx (by simp [optEqExceptFinal])
    | some S =>
      cases hs' : h' srcId with
      | none =>
        rw [hs, hs'] at hx
        exact absurd hx (by simp [optEqExceptFinal])
      | some S' =>
        rw [hs, hs'] at hx
        simp only [optEqExceptFinal, eqExceptFinal] at hx
        obtain ⟨-, hm, -, -, -, -, -, hout, -, -, -, -⟩ := hx
        simp only [hs, hs', ← hm, ← hout]

/-- `update_final_input` computes the same record on any heap that agrees
with `h` outside final-input buffers. -/
theorem update_final_input_congr (h h' : Heap) (a : Moore)
    (hh : ∀ x, optEqExceptFinal (h x) (h' x)) :
    update_final_input h' a = update_final_input h a := by
  unfold update_final_input
  rcases Decidable.em (a.n = 0) with hz | hz
  · rw [if_pos hz, if_pos hz]
  · rw [if_neg hz, if_neg hz]
    have hres : ∀ i, resolveBit h' a i = resolveBit h a i :=
      fun i => resolveBit_congr h h' a a hh rfl rfl i
    have : ∀ buf k, (List.range k).foldl
        (fun buf i => if resolveBit h' a i then setBitBuf buf i else buf) buf =
        (List.range k).foldl
        (fun buf i => if resolveBit h a i then setBitBuf buf i else buf) buf := by
      intro buf k
      induction k generalizing buf with
      | zero => rfl
      | succ k ih =>
        rw [List.range_succ, List.foldl_append, List.foldl_append, ih]
        simp [hres]
    rw [this]

theorem phase1step_at_self (h : Heap) (ai : Nat) (A : Moore) (hA : h ai = some A) :
    phase1step h (some ai) ai = some (update_final_input h A) := by
  unfold phase1step
  simp only [hA]
  exact Heap.upd_self h ai _

theorem phase1step_at_other (h : Heap) (ai x : Nat) (hx : x ≠ ai) :
    phase1step h (some ai) x = h x := by
  unfold phase1step
  cases hA : h ai with
  | none => simp only [hA]
  | some A =>
    simp only [hA]
    exact Heap.upd_other h ai _ hx

theorem stepPhase1_eq_foldl (l : List (Option Nat)) (h : Heap)
    (hnone : ¬ none ∈ l) :
    stepPhase1 h l = (l.foldl phase1step h, true) := by
  induction l generalizing h with
  | nil => rfl
  | cons hd tl ih =>
    cases hd with
    | none => exact absurd (List.mem_cons_self none tl) hnone
    | some ai =>
      rw [stepPhase1, List.foldl_cons]
      exact ih _ (fun hc => hnone (List.mem_cons_of_mem _ hc))

/-- What the input-resolution loop leaves in the final-input buffer of a
live automaton `tid`: if `tid` occurs in the list, its final input is the
per-bit resolution computed from the pre-step heap `h`; otherwise it is
untouched.  All other fields are untouched either way. -/
theorem stepPhase1_main (l : List (Option Nat)) (h : Heap) (tid : Nat) (T : Moore)
    (hnone : ¬ none ∈ l) (hT : h tid = some T) :
    ∃ T', (stepPhase1 h l).1 tid = some T' ∧ eqExceptFinal T T' ∧
      (some tid ∉ l → T'.final_input = T.final_input) ∧
      (some tid ∈ l → T.n = 0 → T'.final_input = T.final_input) ∧
      (some tid ∈ l → 0 < T.n → ∀ i, getBit T'.final_input i =
        if i < T.n then resolveBit h T i else false) := by
  induction l generalizing h T with
  | nil =>
    exact ⟨T, hT, eqExceptFinal_refl T, fun _ => rfl, by simp, by simp⟩
  | cons hd tl ih =>
    have hnone' : ¬ none ∈ tl := fun hc => hnone (List.mem_cons_of_mem _ hc)
    cases hd with
    | none => exact absurd (List.mem_cons_self none tl) hnone
    | some ai =>
      have hframe : ∀ x, optEqExceptFinal (h x) (phase1step h (some ai) x) :=
        fun x => phase1step_frame h (some ai) x
      rcases Decidable.em (tid = ai) with heq | hne
      · subst heq
        -- this element is the automaton itself: its final input is rewritten
        have hself : phase1step h (some tid) tid = some (update_final_input h T) :=
          phase1step_at_self h tid T hT
        obtain ⟨T', h1, h2, h3, h4, h5⟩ :=
          ih (phase1step h (some tid)) (update_final_input h T) hnone' hself
        have hTT1 : eqExceptFinal T (update_final_input h T) :=
          eqExceptFinal_update_final_input h T
        refine ⟨T', by rw [stepPhase1]; exact h1, eqExceptFinal_trans hTT1 h2,
          ?_, ?_, ?_⟩
        · intro hnot
          exact absurd (List.mem_cons_self _ _) hnot
        · intro _ hz
          have hufi : update_final_input h T = T := by
            unfold update_final_input
            rw [if_pos hz]
          rcases Decidable.em (some tid ∈ tl) with hmem | hmem
          · rw [h4 hmem (by rw [hufi]; exact hz), hufi]
          · rw [h3 hmem, hufi]
        · intro _ hpos i
          have hn1 : (update_final_input h T).n = T.n := (hTT1.1).symm
          rcases Decidable.em (some tid ∈ tl) with hmem | hmem
          · rw [h5 hmem (by rw [hn1]; exact hpos) i, hn1]
            have := resolveBit_congr h (phase1step h (some tid)) T
              (update_final_input h T) hframe hTT1.2.2.2.2.2.2.2.2.2.1
              hTT1.2.2.2.2.2.2.2.2.1 i
            rw [this]
          · rw [h3 hmem, getBit_update_final_input h T hpos i]
      · -- a different automaton is resolved first: `tid` is untouched here
        have hother : phase1step h (some ai) tid = some T := by
          rw [phase1step_at_other h ai tid hne, hT]
        obtain ⟨T', h1, h2, h3, h4, h5⟩ :=
          ih (phase1step h (some ai)) T hnone' hother
        have hmemiff : some tid ∈ some ai :: tl ↔ some tid ∈ tl := by
          constructor
          · intro hc
            rcases List.mem_cons.mp hc with hc | hc
            · exact absurd (Option.some.inj hc) hne
            · exact hc
          · exact fun hc => List.mem_cons_of_mem _ hc
        refine ⟨T', by rw [stepPhase1]; exact h1, h2, ?_, ?_, ?_⟩
        · intro hnot
          exact h3 (fun hc => hnot (List.mem_cons_of_mem _ hc))
        · intro hmem hz
          exact h4 (hmemiff.mp hmem) hz
        · intro hmem hpos i
          rw [h5 (hmemiff.mp hmem) hpos i]
          have := resolveBit_congr h (phase1step h (some ai)) T T hframe rfl rfl i
          rw [this]

/-- Two automata agreeing on every field except possibly `next_state`. -/
def eqExceptNext (A B : Moore) : Prop :=
  A.n = B.n ∧ A.m = B.m ∧ A.s = B.s ∧ A.t = B.t ∧ A.y = B.y ∧
  A.state = B.state ∧ A.output = B.output ∧
  A.manual_input = B.manual_input ∧ A.final_input = B.final_input ∧
  A.incoming_connections = B.incoming_connections ∧
  A.connected_to_me = B.connected_to_me ∧
  A.connected_to_me_capacity = B.connected_to_me_capacity

/-- `eqExceptNext` lifted to heap entries. -/
def optEqExceptNext : Option Moore → Option Moore → Prop
  | none, none => True
  | some A, some B => eqExceptNext A B
  | _, _ => False

theorem eqExceptNext_refl (A : Moore) : eqExceptNext A A :=
  ⟨rfl, rfl, rfl, rfl, rfl, rfl, rfl, rfl, rfl, rfl, rfl, rfl⟩

theorem optEqExceptNext_refl (o : Option Moore) : optEqExceptNext o o := by
  cases o with
  | none => trivial
  | some A => exact eqExceptNext_refl A

theorem optEqExceptNext_trans {o1 o2 o3 : Option Moore}
    (h1 : optEqExceptNext o1 o2) (h2 : optEqExceptNext o2 o3) :
    optEqExceptNext o1 o3 := by
  cases o1 <;> cases o2 <;> cases o3 <;> simp only [optEqExceptNext] at *
  obtain ⟨a1, a2, a3, a4, a5, a6, a7, a8, a9, a10, a11, a12⟩ := h1
  obtain ⟨b1, b2, b3, b4, b5, b6, b7, b8, b9, b10, b11, b12⟩ := h2
  exact ⟨a1.trans b1, a2.trans b2, a3.trans b3, a4.trans b4, a5.trans b5,
    a6.trans b6, a7.trans b7, a8.trans b8, a9.trans b9, a10.trans b10,
    a11.trans b11, a12.trans b12⟩

/-- The transition-evaluation loop only touches next-state buffers. -/
theorem phase2step_frame (h : Heap) (a? : Option Nat) (x : Nat) :
    optEqExceptNext (h x) (phase2step h a? x) := by
  cases a? with
  | none => exact optEqExceptNext_refl (h x)
  | some ai =>
    unfold phase2step
    cases hA : h ai with
    | none =>
      simp only [hA]
      exact optEqExceptNext_refl (h x)
    | some A =>
      simp only [hA]
      rcases Decidable.em (x = ai) with hx | hx
      · subst hx
        rw [Heap.upd_self, hA]
        exact ⟨rfl, rfl, rfl, rfl, rfl, rfl, rfl, rfl, rfl, rfl, rfl, rfl⟩
      · rw [Heap.upd_other h ai _ hx]
        exact optEqExceptNext_refl (h x)

theorem foldl_phase2_frame (l : List (Option Nat)) (h : Heap) (x : Nat) :
    optEqExceptNext (h x) ((l.foldl phase2step h) x) := by
  induction l generalizing h with
  | nil => exact optEqExceptNext_refl (h x)
  | cons hd tl ih =>
    rw [List.foldl_cons]
    exact optEqExceptNext_trans (phase2step_frame h hd x) (ih _)

/- ### C1: connected inputs read pre-step outputs -/

/-- C1: during a successful `ma_step`, for every automaton `tid` in the
list whose input slot `i` is connected to a live source `sid` at a
recorded index `idx < S.m`, the final-input bit `i` left by the
input-resolution phase — the buffer that the transition-evaluation phase
then passes unchanged to `tid`'s transition function, together with the
unchanged pre-step state — equals bit `idx` of the source's output buffer
as it was before the step (`S` is `h sid`, the pre-step heap entry; this
holds also when `sid = tid` or the source is elsewhere in the list, since
the resolution loop never writes any output buffer). -/
theorem claim_C1 (h : Heap) (l : List (Option Nat)) (tid sid i idx : Nat)
    (T S : Moore) (hne : l ≠ []) (hnone : ¬ none ∈ l) (hmem : some tid ∈ l)
    (hT : h tid = some T)
    (hslot : T.incoming_connections.getD i none = some (sid, idx))
    (hi : i < T.n) (hS : h sid = some S) (hidx : idx < S.m) :
    (ma_step h l).2 = 0 ∧
    ∃ T', (stepPhase1 h l).1 tid = some T' ∧
      getBit T'.final_input i = getBit S.output idx ∧
      ∃ T'', (l.foldl phase2step (stepPhase1 h l).1) tid = some T'' ∧
        T''.final_input = T'.final_input ∧ T''.state = T.state := by
  have hpos : 0 < T.n := Nat.lt_of_le_of_lt (Nat.zero_le i) hi
  obtain ⟨T', h1, h2, _, _, h5⟩ := stepPhase1_main l h tid T hnone hT
  have hbit : getBit T'.final_input i = getBit S.output idx := by
    rw [h5 hmem hpos i, if_pos hi]
    unfold resolveBit
    rw [hslot]
    simp only [hS]
    rw [if_pos hidx]
  have hsucc : (ma_step h l).2 = 0 := by
    unfold ma_step
    rw [if_neg hne, stepPhase1_eq_foldl l h hnone]
  have hframe2 := foldl_phase2_frame l (stepPhase1 h l).1 tid
  rw [h1] at hframe2
  cases hT'' : (l.foldl phase2step (stepPhase1 h l).1) tid with
  | none => rw [hT''] at hframe2; exact absurd hframe2 (by simp [optEqExceptNext])
  | some T'' =>
    rw [hT''] at hframe2
    exact ⟨hsucc, T', h1, hbit, T'', rfl,
      hframe2.2.2.2.2.2.2.2.2.1.symm,
      by rw [← hframe2.2.2.2.2.2.1]; exact h2.2.2.2.2.2.1.symm⟩

/-- Witness for C1 on a closed input: in `hW`, stepping `[0, 1]`, the
resolved input bit of automaton 1 equals automaton 0's pre-step output
bit 1. -/
theorem claim_C1_witness :
    (ma_step hW [some 0, some 1]).2 = 0 ∧
    ∃ T', (stepPhase1 hW [some 0, some 1]).1 1 = some T' ∧
      getBit T'.final_input 0 = getBit mooreA.output 0 ∧
      ∃ T'', ([some 0, some 1].foldl phase2step
          (stepPhase1 hW [some 0, some 1]).1) 1 = some T'' ∧
        T''.final_input = T'.final_input ∧ T''.state = mooreB.state :=
  claim_C1 hW [some 0, some 1] 1 0 0 0 mooreB mooreA (by simp) (by decide)
    (by simp) rfl rfl (by decide) rfl (by decide)

/- ### C10: failure on a null list element mutates only resolved inputs -/

theorem stepPhase1_append_none (l1 l2 : List (Option Nat)) (h : Heap)
    (hnone : ¬ none ∈ l1) :
    stepPhase1 h (l1 ++ none :: l2) = (l1.foldl phase1step h, false) := by
  induction l1 generalizing h with
  | nil => rfl
  | cons hd tl ih =>
    cases hd with
    | none => exact absurd (List.mem_cons_self none tl) hnone
    | some ai =>
      rw [List.cons_append, stepPhase1, List.foldl_cons]
      exact ih _ (fun hc => hnone (List.mem_cons_of_mem _ hc))

/-- C10: when `ma_step` fails because an element of the list is null, the
result is `-1`, the heap equals the pre-step heap with only the
input-resolution loop applied to the elements preceding the first null,
and consequently no automaton's state, next-state or output buffer has
changed (no transition function was invoked): every heap entry agrees
with its pre-step value except possibly the final-input buffer. -/
theorem claim_C10 (h : Heap) (l1 l2 : List (Option Nat)) (hnone : ¬ none ∈ l1) :
    ma_step h (l1 ++ none :: l2) = (l1.foldl phase1step h, -1) ∧
    ∀ x, optEqExceptFinal (h x) (l1.foldl phase1step h x) := by
  constructor
  · unfold ma_step
    rw [if_neg (by simp), stepPhase1_append_none l1 l2 h hnone]
  · intro x
    have := stepPhase1_frame l1 h x
    rw [stepPhase1_eq_foldl l1 h hnone] at this
    exact this

/-- Witness for C10 on a closed input: stepping `[0, null]` over `hW`
fails with `-1` and leaves everything but final-input buffers intact. -/
theorem claim_C10_witness :
    ma_step hW ([some 0] ++ none :: []) = ([some 0].foldl phase1step hW, -1) ∧
    ∀ x, optEqExceptFinal (hW x) ([some 0].foldl phase1step hW x) :=
  claim_C10 hW [some 0] [] (by decide)

/- ### C8: determinism and list-order insensitivity of `ma_step` -/

/-- Unfolding equation for `phase1step` on a non-null element. -/
theorem phase1step_eq (h : Heap) (ai : Nat) :
    phase1step h (some ai) =
      match h ai with
      | some A => h.upd ai (update_final_input h A)
      | none => h := rfl

/-- Adjacent iterations of the input-resolution loop commute: each one
writes only its own final-input buffer and reads only data that the loop
never writes. -/
theorem phase1step_comm (h : Heap) (a b : Option Nat) :
    phase1step (phase1step h a) b = phase1step (phase1step h b) a := by
  cases a with
  | none => rfl
  | some ai =>
    cases b with
    | none => rfl
    | some bi =>
      rcases Decidable.em (ai = bi) with he | he
      · subst he; rfl
      · have hne' : bi ≠ ai := fun hc => he hc.symm
        cases hA : h ai with
        | none =>
          have eA : phase1step h (some ai) = h := by
            rw [phase1step_eq, hA]
          cases hB : h bi with
          | none =>
            have eB : phase1step h (some bi) = h := by
              rw [phase1step_eq, hB]
            rw [eA, eB, eA]
          | some B =>
            have eB : phase1step h (some bi) = h.upd bi (update_final_input h B) := by
              rw [phase1step_eq, hB]
            have e3 : phase1step (h.upd bi (update_final_input h B)) (some ai)
                = h.upd bi (update_final_input h B) := by
              rw [phase1step_eq, Heap.upd_other h bi _ he, hA]
            rw [eA, eB, e3]
        | some A =>
          have eA : phase1step h (some ai) = h.upd ai (update_final_input h A) := by
            rw [phase1step_eq, hA]
          cases hB : h bi with
          | none =>
            have eB : phase1step h (some bi) = h := by
              rw [phase1step_eq, hB]
            have e3 : phase1step (h.upd ai (update_final_input h A)) (some bi)
                = h.upd ai (update_final_input h A) := by
              rw [phase1step_eq, Heap.upd_other h ai _ hne', hB]
            rw [eA, eB, e3, eA]
          | some B =>
            have hupdA : ∀ x, optEqExceptFinal (h x)
                ((h.upd ai (update_final_input h A)) x) := by
              intro x
              rcases Decidable.em (x = ai) with hx | hx
              · subst hx
                rw [Heap.upd_self, hA]
                exact eqExceptFinal_update_final_input h A
              · rw [Heap.upd_other h ai _ hx]
                exact optEqExceptFinal_refl (h x)
            have hupdB : ∀ x, optEqExceptFinal (h x)
                ((h.upd bi (update_final_input h B)) x) := by
              intro x
              rcases Decidable.em (x = bi) with hx | hx
              · subst hx
                rw [Heap.upd_self, hB]
                exact eqExceptFinal_update_final_input h B
              · rw [Heap.upd_other h bi _ hx]
                exact optEqExceptFinal_refl (h x)
            have eB : phase1step h (some bi) = h.upd bi (update_final_input h B) := by
              rw [phase1step_eq, hB]
            have e3 : phase1step (h.upd ai (update_final_input h A)) (some bi)
                = (h.upd ai (update_final_input h A)).upd bi
                    (update_final_input (h.upd ai (update_final_input h A)) B) := by
              rw [phase1step_eq, Heap.upd_other h ai _ hne', hB]
            have e3' : update_final_input (h.upd ai (update_final_input h A)) B
                = update_final_input h B := update_final_input_congr h _ B hupdA
            have e4 : phase1step (h.upd bi (update_final_input h B)) (some ai)
                = (h.upd bi (update_final_input h B)).upd ai
                    (update_final_input (h.upd bi (update_final_input h B)) A) := by
              rw [phase1step_eq, Heap.upd_other h bi _ he, hA]
            have e4' : update_final_input (h.upd bi (update_final_input h B)) A
                = update_final_input h A := update_final_input_congr h _ A hupdB
            rw [eA, eB, e3, e3', e4, e4']
            funext x
            unfold Heap.upd
            rcases Decidable.em (x = ai) with hx | hx
            · subst hx
              simp [he]
            · rcases Decidable.em (x = bi) with hy | hy
              · subst hy
                simp [hx]
              · simp [hx, hy]

/-- Adjacent iterations of a loop of the form `h[ai] := F h[ai]` commute
(phases 2 and 3 of `ma_step` have this form: each iteration reads and
writes only its own automaton). -/
theorem selfStep_comm (F : Moore → Moore) (step : Heap → Option Nat → Heap)
    (hdef : ∀ h ai, step h (some ai) =
      match h ai with
      | some A => h.upd ai (F A)
      | none => h)
    (hto : ∀ h, step h none = h) (h : Heap) (a b : Option Nat) :
    step (step h a) b = step (step h b) a := by
  cases a with
  | none => rw [hto, hto]
  | some ai =>
    cases b with
    | none => rw [hto, hto]
    | some bi =>
      rcases Decidable.em (ai = bi) with he | he
      · subst he; rfl
      · have hne' : bi ≠ ai := fun hc => he hc.symm
        cases hA : h ai with
        | none =>
          have eA : step h (some ai) = h := by
            rw [hdef h ai, hA]
          cases hB : h bi with
          | none =>
            have eB : step h (some bi) = h := by
              rw [hdef h bi, hB]
            rw [eA, eB, eA]
          | some B =>
            have eB : step h (some bi) = h.upd bi (F B) := by
              rw [hdef h bi, hB]
            have e3 : step (h.upd bi (F B)) (some ai) = h.upd bi (F B) := by
              rw [hdef _ ai, Heap.upd_other h bi _ he, hA]
            rw [eA, eB, e3]
        | some A =>
          have eA : step h (some ai) = h.upd ai (F A) := by
            rw [hdef h ai, hA]
          cases hB : h bi with
          | none =>
            have eB : step h (some bi) = h := by
              rw [hdef h bi, hB]
            have e3 : step (h.upd ai (F A)) (some bi) = h.upd ai (F A) := by
              rw [hdef _ bi, Heap.upd_other h ai _ hne', hB]
            rw [eA, eB, e3, eA]
          | some B =>
            have eB : step h (some bi) = h.upd bi (F B) := by
              rw [hdef h bi, hB]
            have e3 : step (h.upd ai (F A)) (some bi)
                = (h.upd ai (F A)).upd bi (F B) := by
              rw [hdef _ bi, Heap.upd_other h ai _ hne', hB]
            have e4 : step (h.upd bi (F B)) (some ai)
                = (h.upd bi (F B)).upd ai (F A) := by
              rw [hdef _ ai, Heap.upd_other h bi _ he, hA]
            rw [eA, eB, e3, e4]
            funext x
            unfold Heap.upd
            rcases Decidable.em (x = ai) with hx | hx
            · subst hx
              simp [he]
            · rcases Decidable.em (x = bi) with hy | hy
              · subst hy
                simp [hx]
              · simp [hx, hy]

theorem phase2step_comm (h : Heap) (a b : Option Nat) :
    phase2step (phase2step h a) b = phase2step (phase2step h b) a :=
  selfStep_comm
    (fun A =>
      { A with
        next_state :=
          fit (wordsFor A.s) (A.t A.next_state A.final_input A.state A.n A.s) })
    phase2step (fun _ _ => rfl) (fun _ => rfl) h a b

theorem phase3step_comm (h : Heap) (a b : Option Nat) :
    phase3step (phase3step h a) b = phase3step (phase3step h b) a :=
  selfStep_comm
    (fun A =>
      { A with
        state := A.next_state,
        next_state := A.state,
        output := fit (wordsFor A.m) (A.y A.output A.next_state A.m A.s) })
    phase3step (fun _ _ => rfl) (fun _ => rfl) h a b

/-- C8: `ma_step` is deterministic (it is a function of the heap and the
list) and order-insensitive: stepping any permutation of a list of live
automata produces an identical heap and return value.  Each of the three
phases is a fold of pairwise-commuting per-automaton updates, so the fold
is invariant under permutation. -/
theorem claim_C8 (h : Heap) (l1 l2 : List (Option Nat))
    (hperm : l1.Perm l2) (hnone : ¬ none ∈ l1) :
    ma_step h l1 = ma_step h l2 := by
  have hnone2 : ¬ none ∈ l2 := fun hc => hnone (hperm.mem_iff.mpr hc)
  rcases Decidable.em (l1 = []) with hnil | hnil
  · have hnil2 : l2 = [] := by
      subst hnil
      exact hperm.symm.eq_nil
    rw [hnil, hnil2]
  · have hnil2 : l2 ≠ [] := by
      intro hc
      subst hc
      exact hnil hperm.eq_nil
    unfold ma_step
    rw [if_neg hnil, if_neg hnil2, stepPhase1_eq_foldl l1 h hnone,
      stepPhase1_eq_foldl l2 h hnone2]
    simp only
    have e1 : l1.foldl phase1step h = l2.foldl phase1step h :=
      hperm.foldl_eq' (fun x _ y _ z => phase1step_comm z x y) h
    rw [e1]
    have e2 : l1.foldl phase2step (l2.foldl phase1step h)
        = l2.foldl phase2step (l2.foldl phase1step h) :=
      hperm.foldl_eq' (fun x _ y _ z => phase2step_comm z x y) _
    rw [e2]
    have e3 : l1.foldl phase3step (l2.foldl phase2step (l2.foldl phase1step h))
        = l2.foldl phase3step (l2.foldl phase2step (l2.foldl phase1step h)) :=
      hperm.foldl_eq' (fun x _ y _ z => phase3step_comm z x y) _
    rw [e3]

/-- Witness for C8 on a closed input: stepping `[0, 1]` and `[1, 0]` over
`hW` gives identical results. -/
theorem claim_C8_witness :
    ma_step hW [some 0, some 1] = ma_step hW [some 1, some 0] :=
  claim_C8 hW [some 0, some 1] [some 1, some 0]
    (List.Perm.swap (some 1) (some 0) []) (by decide)

/- ### C6: construction computes the initial output -/

/-- C6: a successful `ma_create_full` (any `n`, `m ≥ 1`, `s ≥ 1`, non-null
transition, output and initial-state arguments) copies the initial state
into the state buffer and computes the initial output by invoking the
output function on it (the output buffer starts zeroed by `calloc`), so
`ma_get_output` called immediately afterwards on the new automaton
returns exactly `output(initial_state)`. -/
theorem claim_C6 (n m s : Nat) (tf : TFun) (yf : YFun) (q : List Nat) (A : Moore)
    (hA : ma_create_full n m s (some tf) (some yf) (some q) = some A) :
    A.state = fit (wordsFor s) q ∧
    A.output = fit (wordsFor m)
      (yf (List.replicate (wordsFor m) 0) (fit (wordsFor s) q) m s) ∧
    ∀ (h : Heap) (ai : Nat), h ai = some A →
      ma_get_output h (some ai) = some (fit (wordsFor m)
        (yf (List.replicate (wordsFor m) 0) (fit (wordsFor s) q) m s)) := by
  have hA2 : (if m = 0 ∨ s = 0 then (none : Option Moore)
      else if n > SIZE_MAX / 64 ∨ m > SIZE_MAX / 64 ∨ s > SIZE_MAX / 64 then none
      else if wordsFor n > SIZE_MAX / 8 ∨ wordsFor m > SIZE_MAX / 8 ∨
          wordsFor s > SIZE_MAX / 8 ∨ n > SIZE_MAX / 16 then none
      else some {
        n := n, m := m, s := s, t := tf, y := yf,
        state := fit (wordsFor s) q,
        next_state := List.replicate (wordsFor s) 0,
        output := fit (wordsFor m)
          (yf (List.replicate (wordsFor m) 0) (fit (wordsFor s) q) m s),
        manual_input := List.replicate (wordsFor n) 0,
        final_input := List.replicate (wordsFor n) 0,
        incoming_connections := List.replicate n none,
        connected_to_me := [],
        connected_to_me_capacity := 8 }) = some A := hA
  rcases Decidable.em (m = 0 ∨ s = 0) with hc1 | hc1
  · rw [if_pos hc1] at hA2
    exact absurd hA2 (by simp)
  rw [if_neg hc1] at hA2
  rcases Decidable.em (n > SIZE_MAX / 64 ∨ m > SIZE_MAX / 64 ∨ s > SIZE_MAX / 64)
    with hc2 | hc2
  · rw [if_pos hc2] at hA2
    exact absurd hA2 (by simp)
  rw [if_neg hc2] at hA2
  rcases Decidable.em (wordsFor n > SIZE_MAX / 8 ∨ wordsFor m > SIZE_MAX / 8 ∨
      wordsFor s > SIZE_MAX / 8 ∨ n > SIZE_MAX / 16) with hc3 | hc3
  · rw [if_pos hc3] at hA2
    exact absurd hA2 (by simp)
  rw [if_neg hc3] at hA2
  obtain rfl := Option.some.inj hA2
  refine ⟨rfl, rfl, ?_⟩
  intro h ai hh
  show Option.map (fun A => A.output) (h ai) = _
  rw [hh]
  rfl

/-- The automaton produced by
`ma_create_full 0 1 1 tHold yCopy [1]`, written out. -/
def mooreC6 : Moore :=
  { n := 0, m := 1, s := 1, t := tHold, y := yCopy,
    state := fit (wordsFor 1) [1],
    next_state := List.replicate (wordsFor 1) 0,
    output := fit (wordsFor 1)
      (yCopy (List.replicate (wordsFor 1) 0) (fit (wordsFor 1) [1]) 1 1),
    manual_input := List.replicate (wordsFor 0) 0,
    final_input := List.replicate (wordsFor 0) 0,
    incoming_connections := List.replicate 0 none,
    connected_to_me := [],
    connected_to_me_capacity := 8 }

/-- Witness for C6 on a closed input. -/
theorem claim_C6_witness :
    mooreC6.state = fit (wordsFor 1) [1] ∧
    mooreC6.output = fit (wordsFor 1)
      (yCopy (List.replicate (wordsFor 1) 0) (fit (wordsFor 1) [1]) 1 1) ∧
    ∀ (h : Heap) (ai : Nat), h ai = some mooreC6 →
      ma_get_output h (some ai) = some (fit (wordsFor 1)
        (yCopy (List.replicate (wordsFor 1) 0) (fit (wordsFor 1) [1]) 1 1)) :=
  claim_C6 0 1 1 tHold yCopy [1] mooreC6 rfl

/- ### C7: deletion is a no-op on null/destroyed references, idempotent -/

theorem foldl_preserve {α : Type} (P : Heap → Prop) (f : Heap → α → Heap)
    (hf : ∀ hh x, P hh → P (f hh x)) (l : List α) (hh : Heap) (hP : P hh) :
    P (l.foldl f hh) := by
  induction l generalizing hh with
  | nil => exact hP
  | cons hd tl ih => exact ih (f hh hd) (hf hh hd hP)

theorem ma_delete_of_dead (h : Heap) (ai : Nat) (hdead : h ai = none) :
    ma_delete h (some ai) = h := by
  unfold ma_delete
  simp only [hdead]

/-- After deleting a live automaton, its identifier is dead: the cleanup
loops only ever update identifiers that are live at the time. -/
theorem ma_delete_result_dead (h : Heap) (ai : Nat) (A : Moore)
    (hA : h ai = some A) :
    (ma_delete h (some ai)) ai = none := by
  unfold ma_delete
  simp only [hA]
  apply foldl_preserve (fun hh => hh ai = none)
  · intro hh d hdead
    cases hd : hh d with
    | none => simpa [hd] using hdead
    | some D =>
      have hne : ai ≠ d := by
        intro hc
        rw [← hc, hdead] at hd
        exact Option.noConfusion hd
      simp only [hd]
      rw [Heap.upd_other _ _ _ hne]
      exact hdead
  · apply foldl_preserve (fun hh => hh ai = none)
    · intro hh slot hdead
      cases slot with
      | none => exact hdead
      | some p =>
        obtain ⟨src, idx⟩ := p
        cases hs : hh src with
        | none => simpa [hs] using hdead
        | some S =>
          have hne : ai ≠ src := by
            intro hc
            rw [← hc, hdead] at hs
            exact Option.noConfusion hs
          simp only [hs]
          rw [Heap.upd_other _ _ _ hne]
          exact hdead
    · simp

/-- C7: `ma_delete` is a no-op on a null reference and on an
already-destroyed reference, and never fails; in particular deleting the
same reference twice is safe, the second call having no effect. -/
theorem claim_C7 (h : Heap) :
    ma_delete h none = h ∧
    (∀ ai, h ai = none → ma_delete h (some ai) = h) ∧
    (∀ a?, ma_delete (ma_delete h a?) a? = ma_delete h a?) := by
  refine ⟨rfl, fun ai hdead => ma_delete_of_dead h ai hdead, ?_⟩
  intro a?
  cases a? with
  | none => rfl
  | some ai =>
    cases hA : h ai with
    | none =>
      rw [ma_delete_of_dead h ai hA, ma_delete_of_dead h ai hA]
    | some A =>
      exact ma_delete_of_dead _ ai (ma_delete_result_dead h ai A hA)

/-- Witness for C7 on a closed input: deleting a null reference, a dead
identifier and twice the same live automaton over `hW`. -/
theorem claim_C7_witness :
    ma_delete hW none = hW ∧ ma_delete hW (some 5) = hW ∧
    ma_delete (ma_delete hW (some 0)) (some 0) = ma_delete hW (some 0) :=
  ⟨(claim_C7 hW).1, (claim_C7 hW).2.1 5 rfl, (claim_C7 hW).2.2 (some 0)⟩

/- ### C9: `ma_set_input` writes only the manual-input buffer -/

theorem fit_eq_take (k : Nat) (l : List Nat) (hk : k ≤ l.length) :
    fit k l = l.take k := by
  apply List.ext_getElem?
  intro i
  rcases Nat.lt_or_ge i k with hi | hi
  · have hil : i < l.length := Nat.lt_of_lt_of_le hi hk
    rw [fit, List.getElem?_map, List.getElem?_range hi,
      List.getElem?_take_of_lt hi, List.getElem?_eq_getElem hil]
    simp [List.getD_eq_getElem?_getD, List.getElem?_eq_getElem hil]
  · have h1 : ((List.range k).map fun i => l.getD i 0)[i]? = none := by
      apply List.getElem?_eq_none
      simpa using hi
    have h2 : (l.take k)[i]? = none := by
      apply List.getElem?_eq_none
      rw [List.length_take]
      omega
    rw [fit, h1, h2]

/-- C9: on a live automaton with `n > 0` and a non-null input pointer,
`ma_set_input` succeeds and copies exactly `⌈n/64⌉` words into the
manual-input buffer; the automaton's state, next-state, output and
final-input buffers, its widths, its incoming-connection slots, its
dependents list and every other automaton in the heap are unchanged. -/
theorem claim_C9 (h : Heap) (ai : Nat) (A : Moore) (inp : List Nat)
    (hA : h ai = some A) (hn : 0 < A.n) (hlen : wordsFor A.n ≤ inp.length) :
    ∃ A', ma_set_input h (some ai) (some inp) = (h.upd ai A', 0) ∧
      A'.manual_input = inp.take (wordsFor A.n) ∧
      A'.state = A.state ∧ A'.next_state = A.next_state ∧
      A'.output = A.output ∧ A'.final_input = A.final_input ∧
      A'.incoming_connections = A.incoming_connections ∧
      A'.connected_to_me = A.connected_to_me ∧
      A'.n = A.n ∧ A'.m = A.m ∧ A'.s = A.s ∧ A'.t = A.t ∧ A'.y = A.y ∧
      ∀ x, x ≠ ai → (h.upd ai A') x = h x := by
  refine ⟨{ A with manual_input := fit (wordsFor A.n) inp }, ?_, ?_, rfl, rfl,
    rfl, rfl, rfl, rfl, rfl, rfl, rfl, rfl, rfl, ?_⟩
  · show (match h ai with
      | some A =>
        if A.n = 0 then (h, -1)
        else (h.upd ai { A with manual_input := fit (wordsFor A.n) inp }, 0)
      | none => (h, -1)) = _
    rw [hA]
    simp only [if_neg (by omega : ¬ A.n = 0)]
  · exact fit_eq_take (wordsFor A.n) inp hlen
  · intro x hx
    exact Heap.upd_other h ai _ hx

/-- Witness for C9 on a closed input: setting automaton 1's manual input
over `hW`. -/
theorem claim_C9_witness :
    ∃ A', ma_set_input hW (some 1) (some [1]) = (hW.upd 1 A', 0) ∧
      A'.manual_input = [1].take (wordsFor mooreB.n) ∧
      A'.state = mooreB.state ∧ A'.next_state = mooreB.next_state ∧
      A'.output = mooreB.output ∧ A'.final_input = mooreB.final_input ∧
      A'.incoming_connections = mooreB.incoming_connections ∧
      A'.connected_to_me = mooreB.connected_to_me ∧
      A'.n = mooreB.n ∧ A'.m = mooreB.m ∧ A'.s = mooreB.s ∧
      A'.t = mooreB.t ∧ A'.y = mooreB.y ∧
      ∀ x, x ≠ 1 → (hW.upd 1 A') x = hW x :=
  claim_C9 hW 1 mooreB [1] rfl (by decide) (by decide)

/- ### C3: the dependents invariant (violated by overwriting `ma_connect`) -/

/-- Unfolding equation for `ma_connect` on non-null pointers (the
intermediate heap, with the target's slots overwritten, written out). -/
theorem ma_connect_eq (h : Heap) (ai inI ao outI num : Nat) (af : Bool) :
    ma_connect h (some ai) inI (some ao) outI num af =
      (if num = 0 then (h, -1)
       else
         match h ai, h ao with
         | some A, some B =>
           if inI ≥ A.n ∨ outI ≥ B.m ∨ num > A.n - inI ∨ num > B.m - outI
           then (h, -1)
           else
             match (h.upd ai { A with incoming_connections := writeSlots A.incoming_connections inI ao outI num }) ao with
             | some B' =>
               match append_to_connected_list B' ai af with
               | none => (h.upd ai { A with incoming_connections := writeSlots A.incoming_connections inI ao outI num }, -1)
               | some B'' => ((h.upd ai { A with incoming_connections := writeSlots A.incoming_connections inI ao outI num }).upd ao B'', 0)
             | none => (h.upd ai { A with incoming_connections := writeSlots A.incoming_connections inI ao outI num }, -1)
         | _, _ => (h, -1)) := rfl

/-- What a successful `append_to_connected_list` does to the dependents
list: the new entry is present, and nothing else was added. -/
theorem append_to_connected_list_spec (B : Moore) (x : Nat) (af : Bool)
    (B'' : Moore) (happ : append_to_connected_list B x af = some B'') :
    x ∈ B''.connected_to_me ∧
    ∀ d, d ∈ B''.connected_to_me → d ∈ B.connected_to_me ∨ d = x := by
  unfold append_to_connected_list at happ
  rcases Decidable.em (x ∈ B.connected_to_me) with hmem | hmem
  · rw [if_pos hmem] at happ
    obtain rfl := Option.some.inj happ
    exact ⟨hmem, fun d hd => Or.inl hd⟩
  · rw [if_neg hmem] at happ
    rcases Decidable.em (B.connected_to_me.length = B.connected_to_me_capacity)
      with hcap | hcap
    · rw [if_pos hcap] at happ
      cases af with
      | true => exact absurd happ (by simp)
      | false =>
        obtain rfl := Option.some.inj happ
        refine ⟨List.mem_append.mpr (Or.inr (List.mem_singleton.mpr rfl)), ?_⟩
        intro d hd
        rcases List.mem_append.mp hd with hd | hd
        · exact Or.inl hd
        · exact Or.inr (List.mem_singleton.mp hd)
    · rw [if_neg hcap] at happ
      obtain rfl := Option.some.inj happ
      refine ⟨List.mem_append.mpr (Or.inr (List.mem_singleton.mpr rfl)), ?_⟩
      intro d hd
      rcases List.mem_append.mp hd with hd | hd
      · exact Or.inl hd
      · exact Or.inr (List.mem_singleton.mp hd)

/-- C3 as amended: `ma_connect` never removes a dependents-list entry.
The dependents list of every automaton other than the new source is left
exactly as it was — in particular, when the call overwrites a slot's
prior source, the old source keeps its (now possibly stale) entry for the
target even if no surviving connection remains, so `connected_to_me` of X
can strictly contain the set of live automata with an incoming connection
sourced at X.  On success the new source's list is its old list, with the
target appended if it was not already present. -/
theorem claim_C3_amended (h : Heap) (ai inI ao outI num : Nat) (af : Bool) :
    (∀ x X, x ≠ ao → h x = some X →
      ∃ X', (ma_connect h (some ai) inI (some ao) outI num af).1 x = some X' ∧
        X'.connected_to_me = X.connected_to_me) ∧
    ((ma_connect h (some ai) inI (some ao) outI num af).2 = 0 →
      ∀ B, h ao = some B →
        ∃ B', (ma_connect h (some ai) inI (some ao) outI num af).1 ao = some B' ∧
          ai ∈ B'.connected_to_me ∧
          ∀ d, d ∈ B'.connected_to_me → d ∈ B.connected_to_me ∨ d = ai) := by
  rw [ma_connect_eq]
  rcases Decidable.em (num = 0) with hz | hz
  · rw [if_pos hz]
    exact ⟨fun x X _ hx => ⟨X, hx, rfl⟩,
      fun hcode => absurd (show (-1 : Int) = 0 from hcode) (by decide)⟩
  rw [if_neg hz]
  cases hA : h ai with
  | none =>
    simp only [hA]
    exact ⟨fun x X _ hx => ⟨X, hx, rfl⟩,
      fun hcode => absurd (show (-1 : Int) = 0 from hcode) (by decide)⟩
  | some A =>
    cases hB : h ao with
    | none =>
      simp only [hA, hB]
      exact ⟨fun x X _ hx => ⟨X, hx, rfl⟩,
        fun hcode => absurd (show (-1 : Int) = 0 from hcode) (by decide)⟩
    | some B =>
      simp only [hA, hB]
      rcases Decidable.em (inI ≥ A.n ∨ outI ≥ B.m ∨ num > A.n - inI ∨
          num > B.m - outI) with hrange | hrange
      · rw [if_pos hrange]
        exact ⟨fun x X _ hx => ⟨X, hx, rfl⟩,
          fun hcode => absurd (show (-1 : Int) = 0 from hcode) (by decide)⟩
      rw [if_neg hrange]
      set A' : Moore := { A with incoming_connections := writeSlots A.incoming_connections inI ao outI num } with hA'
      have hA'dep : A'.connected_to_me = A.connected_to_me := rfl
      have hB'eq : ∃ B', (h.upd ai A') ao = some B' ∧
          B'.connected_to_me = B.connected_to_me := by
        rcases Decidable.em (ao = ai) with hao | hao
        · subst hao
          rw [Heap.upd_self]
          refine ⟨A', rfl, ?_⟩
          rw [hA'dep]
          rw [hA] at hB
          rw [Option.some.inj hB]
        · rw [Heap.upd_other h ai _ hao]
          exact ⟨B, hB, rfl⟩
      obtain ⟨B', hB', hB'dep⟩ := hB'eq
      simp only [hB']
      cases happ : append_to_connected_list B' ai af with
      | none =>
        simp only
        constructor
        · intro x X hxo hx
          rcases Decidable.em (x = ai) with hxi | hxi
          · subst hxi
            rw [Heap.upd_self]
            rw [hA] at hx
            exact ⟨A', rfl, by rw [hA'dep, Option.some.inj hx]⟩
          · rw [Heap.upd_other h ai _ hxi]
            exact ⟨X, hx, rfl⟩
        · intro hcode
          exact absurd (show (-1 : Int) = 0 from hcode) (by decide)
      | some B'' =>
        simp only
        constructor
        · intro x X hxo hx
          rw [Heap.upd_other _ ao _ hxo]
          rcases Decidable.em (x = ai) with hxi | hxi
          · subst hxi
            rw [Heap.upd_self]
            rw [hA] at hx
            exact ⟨A', rfl, by rw [hA'dep, Option.some.inj hx]⟩
          · rw [Heap.upd_other h ai _ hxi]
            exact ⟨X, hx, rfl⟩
        · intro _ B0 hB0
          have hBB0 : B0 = B := (Option.some.inj hB0).symm
          subst hBB0
          obtain ⟨hin, hsub⟩ := append_to_connected_list_spec B' ai af B'' happ
          refine ⟨B'', Heap.upd_self _ ao _, hin, ?_⟩
          intro d hd
          rcases hsub d hd with hd' | hd'
          · exact Or.inl (hB'dep ▸ hd')
          · exact Or.inr hd'

/-- The three automata of the C3 counterexample: `1` can be connected to
the outputs of `0` and `2`. -/
def hC3a : Heap :=
  fun x => if x = 0 then ma_create_simple 0 1 (some tHold)
    else if x = 1 then ma_create_simple 1 1 (some tHold)
    else if x = 2 then ma_create_simple 0 1 (some tHold)
    else none

/-- After `connect(1, 0, 0, 0, 1)`: automaton 1 reads from automaton 0. -/
def hC3b : Heap := (ma_connect hC3a (some 1) 0 (some 0) 0 1 false).1

/-- After the overwriting `connect(1, 0, 2, 0, 1)`: automaton 1 reads
from automaton 2 only. -/
def hC3c : Heap := (ma_connect hC3b (some 1) 0 (some 2) 0 1 false).1

/-- Counterexample to C3 as stated: in the reachable state `hC3c`
(create, create, create, connect, overwriting connect, all succeeding),
the old source 0 still lists 1 as a dependent, although automaton 1's
only incoming slot is now sourced at automaton 2 — the dependents list is
not equal to the set of live automata with an incoming connection whose
source is automaton 0, and the overwriting `connect` did not remove the
stale entry. -/
theorem claim_C3_counterexample :
    (ma_connect hC3b (some 1) 0 (some 2) 0 1 false).2 = 0 ∧
    (hC3c 0).map (fun A0 => A0.connected_to_me) = some [1] ∧
    (hC3c 1).map (fun B1 => B1.incoming_connections) = some [some (2, 0)] :=
  ⟨rfl, rfl, rfl⟩

/-- Witness for the amended C3 on a closed input: connecting `1 ← 0` over
`hW` leaves automaton 1's dependents list untouched. -/
theorem claim_C3_witness :
    ∃ X', (ma_connect hW (some 1) 0 (some 0) 0 1 false).1 1 = some X' ∧
      X'.connected_to_me = mooreB.connected_to_me :=
  (claim_C3_amended hW 1 0 0 0 1 false).1 1 mooreB (by decide) rfl

/- ### C4: failure atomicity of `ma_connect` (violated on allocation failure) -/

/-- C4 as amended: an `InvalidArgument` failure of `ma_connect` (null
pointer, zero count, or out-of-range indices) mutates nothing at all; a
`ResourceExhausted` failure (the dependents-array growth failing) still
leaves every dependents list and every buffer unchanged, but the target's
incoming-connection slots in the requested range have already been
overwritten by then — the slot writes precede the dependents-list append
in the source. -/
theorem claim_C4_amended (h : Heap) (ai? ao? : Option Nat)
    (inI outI num : Nat) (af : Bool) :
    ((ai? = none ∨ ao? = none ∨ num = 0) →
      ma_connect h ai? inI ao? outI num af = (h, -1)) ∧
    (∀ ai ao A B, ai? = some ai → ao? = some ao → h ai = some A →
      h ao = some B → num ≠ 0 →
      (inI ≥ A.n ∨ outI ≥ B.m ∨ num > A.n - inI ∨ num > B.m - outI) →
      ma_connect h ai? inI ao? outI num af = (h, -1)) ∧
    ((ma_connect h ai? inI ao? outI num af).2 = -1 →
      ∀ x X, h x = some X →
        ∃ X', (ma_connect h ai? inI ao? outI num af).1 x = some X' ∧
          X'.connected_to_me = X.connected_to_me ∧ X'.state = X.state ∧
          X'.next_state = X.next_state ∧ X'.output = X.output ∧
          X'.manual_input = X.manual_input ∧ X'.final_input = X.final_input ∧
          X'.n = X.n ∧ X'.m = X.m ∧ X'.s = X.s) := by
  refine ⟨?_, ?_, ?_⟩
  · intro hc
    cases ai? with
    | none => rfl
    | some ai =>
      cases ao? with
      | none => rfl
      | some ao =>
        have hz : num = 0 := by
          rcases hc with hc | hc | hc
          · exact absurd hc (by simp)
          · exact absurd hc (by simp)
          · exact hc
        rw [ma_connect_eq, if_pos hz]
  · intro ai ao A B hai hao hA hB hz hrange
    subst hai
    subst hao
    rw [ma_connect_eq, if_neg hz]
    simp only [hA, hB, if_pos hrange]
  · cases ai? with
    | none =>
      intro _ x X hx
      exact ⟨X, hx, rfl, rfl, rfl, rfl, rfl, rfl, rfl, rfl, rfl⟩
    | some ai =>
      cases ao? with
      | none =>
        intro _ x X hx
        exact ⟨X, hx, rfl, rfl, rfl, rfl, rfl, rfl, rfl, rfl, rfl⟩
      | some ao =>
        rw [ma_connect_eq]
        rcases Decidable.em (num = 0) with hz | hz
        · rw [if_pos hz]
          intro _ x X hx
          exact ⟨X, hx, rfl, rfl, rfl, rfl, rfl, rfl, rfl, rfl, rfl⟩
        rw [if_neg hz]
        cases hA : h ai with
        | none =>
          simp only [hA]
          intro _ x X hx
          exact ⟨X, hx, rfl, rfl, rfl, rfl, rfl, rfl, rfl, rfl, rfl⟩
        | some A =>
          cases hB : h ao with
          | none =>
            simp only [hA, hB]
            intro _ x X hx
            exact ⟨X, hx, rfl, rfl, rfl, rfl, rfl, rfl, rfl, rfl, rfl⟩
          | some B =>
            simp only [hA, hB]
            rcases Decidable.em (inI ≥ A.n ∨ outI ≥ B.m ∨ num > A.n - inI ∨
                num > B.m - outI) with hrange | hrange
            · rw [if_pos hrange]
              intro _ x X hx
              exact ⟨X, hx, rfl, rfl, rfl, rfl, rfl, rfl, rfl, rfl, rfl⟩
            rw [if_neg hrange]
            set A' : Moore := { A with incoming_connections := writeSlots A.incoming_connections inI ao outI num } with hA'
            cases hB' : (h.upd ai A') ao with
            | none =>
              simp only [hB']
              intro _ x X hx
              rcases Decidable.em (x = ai) with hxi | hxi
              · subst hxi
                rw [Heap.upd_self]
                rw [hA] at hx
                obtain rfl := Option.some.inj hx
                exact ⟨A', rfl, rfl, rfl, rfl, rfl, rfl, rfl, rfl, rfl, rfl⟩
              · rw [Heap.upd_other h ai _ hxi]
                exact ⟨X, hx, rfl, rfl, rfl, rfl, rfl, rfl, rfl, rfl, rfl⟩
            | some B' =>
              simp only [hB']
              cases happ : append_to_connected_list B' ai af with
              | none =>
                simp only
                intro _ x X hx
                rcases Decidable.em (x = ai) with hxi | hxi
                · subst hxi
                  rw [Heap.upd_self]
                  rw [hA] at hx
                  obtain rfl := Option.some.inj hx
                  exact ⟨A', rfl, rfl, rfl, rfl, rfl, rfl, rfl, rfl, rfl, rfl⟩
                · rw [Heap.upd_other h ai _ hxi]
                  exact ⟨X, hx, rfl, rfl, rfl, rfl, rfl, rfl, rfl, rfl, rfl⟩
              | some B'' =>
                simp only
                intro hcode
                exact absurd (show (0 : Int) = -1 from hcode) (by decide)

/-- A source automaton whose dependents array is full: eight dependents
recorded (the state after eight successful `ma_connect` calls from eight
distinct targets) with the initial capacity 8. -/
def mooreSrcFull : Moore :=
  { n := 0, m := 1, s := 1, t := tHold, y := yCopy,
    state := [0], next_state := [0], output := [0],
    manual_input := [], final_input := [],
    incoming_connections := [],
    connected_to_me := [2, 3, 4, 5, 6, 7, 8, 9],
    connected_to_me_capacity := 8 }

/-- A target automaton with one unconnected input slot. -/
def mooreTgt : Moore :=
  { n := 1, m := 1, s := 1, t := tHold, y := yCopy,
    state := [0], next_state := [0], output := [0],
    manual_input := [0], final_input := [0],
    incoming_connections := [none],
    connected_to_me := [], connected_to_me_capacity := 8 }

/-- Heap for the C4 counterexample: source 0 with a full dependents
array, target 1 with an empty slot. -/
def hC4 : Heap :=
  fun x => if x = 0 then some mooreSrcFull
    else if x = 1 then some mooreTgt else none

/-- Counterexample to C4 as stated: `ma_connect` with valid arguments
fails with `ResourceExhausted` (growing the full dependents array fails),
yet the target's incoming slot — previously empty — has already been
overwritten with the new source: the failure is observable as a partial
mutation. -/
theorem claim_C4_counterexample :
    (ma_connect hC4 (some 1) 0 (some 0) 0 1 true).2 = -1 ∧
    mooreTgt.incoming_connections = [none] ∧
    ((ma_connect hC4 (some 1) 0 (some 0) 0 1 true).1 1).map
      (fun T => T.incoming_connections) = some [some (0, 0)] :=
  ⟨rfl, rfl, rfl⟩

/-- Witness for the amended C4 on a closed input: a null target pointer
fails with no mutation at all. -/
theorem claim_C4_witness :
    ma_connect hW none 0 (some 0) 0 1 false = (hW, -1) :=
  (claim_C4_amended hW none (some 0) 0 0 1 false).1 (Or.inl rfl)

/- ### C5: unused high bits of state/output buffers (library never masks) -/

/-- C5 as amended: the library itself applies no masking.  `ma_set_state`
(and the construction's initial-state copy, which uses the same
word-for-word copy) stores exactly the caller's words, so the unused high
bits of the last state word are zero exactly when the caller supplies
them zero; the output buffer holds exactly what the output function
returns.  The built-in `identity_func` does mask: every bit at index `≥ s`
of its result (within the buffer) is zero. -/
theorem claim_C5_amended (h : Heap) (ai : Nat) (A : Moore) (q : List Nat)
    (hA : h ai = some A) :
    (∃ A', (ma_set_state h (some ai) (some q)).1 ai = some A' ∧
      (ma_set_state h (some ai) (some q)).2 = 0 ∧
      A'.state = fit (wordsFor A.s) q ∧
      A'.output = fit (wordsFor A.m)
        (A.y A.output (fit (wordsFor A.s) q) A.m A.s) ∧
      (∀ j, A.s ≤ j → getBit q j = false → getBit A'.state j = false)) ∧
    (∀ old st s j, 0 < s → s ≤ j → j < 64 * wordsFor s →
      getBit (identity_func old st s s) j = false) := by
  constructor
  · have hred : ma_set_state h (some ai) (some q) =
        (match h ai with
         | some A =>
           (h.upd ai
             { A with
               state := fit (wordsFor A.s) q,
               output := fit (wordsFor A.m)
                 (A.y A.output (fit (wordsFor A.s) q) A.m A.s) }, 0)
         | none => (h, -1)) := rfl
    rw [hred, hA]
    refine ⟨{ A with
        state := fit (wordsFor A.s) q,
        output := fit (wordsFor A.m)
          (A.y A.output (fit (wordsFor A.s) q) A.m A.s) },
      Heap.upd_self h ai _, rfl, rfl, rfl, ?_⟩
    intro j hsj hq
    show getBit (fit (wordsFor A.s) q) j = false
    rw [getBit_fit]
    rcases Decidable.em (j / 64 < wordsFor A.s) with hj | hj
    · rw [if_pos hj]
      exact hq
    · rw [if_neg hj]
  · intro old st s j hs hsj hjw
    unfold identity_func
    rw [if_pos ⟨rfl, hs⟩]
    rcases Decidable.em (s % 64 = 0) with hz | hz
    · exfalso
      unfold wordsFor at hjw
      omega
    · rw [if_pos hz]
      unfold getBit
      have hW : 64 * (wordsFor s - 1) < s := by
        unfold wordsFor
        omega
      have hjdiv : j / 64 = wordsFor s - 1 := by
        unfold wordsFor at hjw ⊢
        omega
      have hlen : (fit (wordsFor s) st).length = wordsFor s := fit_length _ _
      rw [List.getD_eq_getElem?_getD, hjdiv, List.getElem?_set, if_pos rfl,
        if_pos (by rw [hlen]; unfold wordsFor; omega)]
      simp only [Option.getD_some]
      have h1 : (fit (wordsFor s) st).getD (wordsFor s - 1) 0 % 2 ^ (s % 64)
          < 2 ^ (s % 64) := Nat.mod_lt _ (Nat.two_pow_pos _)
      have hbits : s % 64 ≤ j % 64 := by
        unfold wordsFor at hjdiv
        omega
      have h2 : 2 ^ (s % 64) ≤ 2 ^ (j % 64) :=
        Nat.pow_le_pow_right (by omega) hbits
      exact Nat.testBit_lt_two_pow (Nat.lt_of_lt_of_le h1 h2)

/-- Heap for the C5 counterexample: a single `ma_create_simple 0 1`
automaton (so `s = 1`, identity output). -/
def hC5 : Heap :=
  fun x => if x = 0 then ma_create_simple 0 1 (some tHold) else none

/-- The heap after `ma_set_state` with the word 3, whose bit 1 is an
unused high bit for a width-1 state. -/
def hC5b : Heap := (ma_set_state hC5 (some 0) (some [3])).1

/-- Counterexample to C5 as stated: in the reachable state `hC5b`
(create with `s = 1`, then a successful `set_state` with the word 3) the
state buffer is `[3]`: bit 1 of the last (only) state word — an unused
high bit, since `s = 1` is not a multiple of 64 — is set, because
`ma_set_state` copies the caller's words without masking. -/
theorem claim_C5_counterexample :
    ((hC5b 0).map fun A => (A.s, A.state)) = some (1, [3]) ∧
    getBit [3] 1 = true :=
  ⟨rfl, by decide⟩

/-- Witness for the amended C5 on a closed input. -/
theorem claim_C5_witness :
    (∃ A', (ma_set_state hW (some 0) (some [0])).1 0 = some A' ∧
      (ma_set_state hW (some 0) (some [0])).2 = 0 ∧
      A'.state = fit (wordsFor mooreA.s) [0] ∧
      A'.output = fit (wordsFor mooreA.m)
        (mooreA.y mooreA.output (fit (wordsFor mooreA.s) [0]) mooreA.m mooreA.s) ∧
      (∀ j, mooreA.s ≤ j → getBit [0] j = false → getBit A'.state j = false)) ∧
    (∀ old st s j, 0 < s → s ≤ j → j < 64 * wordsFor s →
      getBit (identity_func old st s s) j = false) :=
  claim_C5_amended hW 0 mooreA [0] rfl

end MA
